import Mathlib

/-!
Shallow embedding of `bitlib.h`: a fixed-width (64-bit) bit-manipulation
library over a single unsigned word.  The C type `bit`
(`unsigned long long int`) is modelled as `Nat`, with every result that C
truncates to 64 bits reduced `% 2 ^ BIT_SIZE`.  C's `bool` enum is `Bool`.
C strings are modelled as `List Char` (the characters before the
terminating NUL).  The two mutating "consume" helpers
(`Bit_getAndRemoveRight`) are modelled as functions returning the pair
(removed bit, updated register).
-/

/-- `const size_t BIT_SIZE = sizeof(bit) * 8;` — the width of `bit`. -/
def BIT_SIZE : Nat := 64

/-- `Bit_shiftLeft(b, n)`: C `b << n` on a 64-bit unsigned word, so the
result is truncated to 64 bits. -/
def Bit_shiftLeft (b n : Nat) : Nat := (b <<< n) % 2 ^ BIT_SIZE

/-- `Bit_shiftRight(b, n)`: C `b >> n` on an unsigned word (logical shift). -/
def Bit_shiftRight (b n : Nat) : Nat := b >>> n

/-- `Bit_OR(b1, b2)`: C `b1 | b2`. -/
def Bit_OR (b1 b2 : Nat) : Nat := b1 ||| b2

/-- `Bit_XOR(b1, b2)`: C `b1 ^ b2`. -/
def Bit_XOR (b1 b2 : Nat) : Nat := b1 ^^^ b2

/-- `Bit_AND(b1, b2)`: C `b1 & b2`. -/
def Bit_AND (b1 b2 : Nat) : Nat := b1 &&& b2

/-- C unary `~` on a 64-bit unsigned word: complement of the low 64 bits. -/
def Bit_not (b : Nat) : Nat := b ^^^ (2 ^ BIT_SIZE - 1)

/-- `Bit_mask1(n)`: clamp `n` to `[1, BIT_SIZE]`, then `shiftLeft(1, n-1)`. -/
def Bit_mask1 (n : Nat) : Nat :=
  Bit_shiftLeft 1 ((if n < 1 then 1 else if n > BIT_SIZE then BIT_SIZE else n) - 1)

/-- `Bit_turnOn(b, n) = Bit_OR(b, Bit_mask1(n))`. -/
def Bit_turnOn (b n : Nat) : Nat := Bit_OR b (Bit_mask1 n)

/-- `Bit_turnOff(b, n) = Bit_AND(b, ~Bit_mask1(n))`. -/
def Bit_turnOff (b n : Nat) : Nat := Bit_AND b (Bit_not (Bit_mask1 n))

/-- `Bit_toggle(b, n) = Bit_XOR(b, Bit_mask1(n))`. -/
def Bit_toggle (b n : Nat) : Nat := Bit_XOR b (Bit_mask1 n)

/-- `Bit_get(b, n) = Bit_AND(b, Bit_mask1(n)) != 0`. -/
def Bit_get (b n : Nat) : Bool := Bit_AND b (Bit_mask1 n) != 0

/-- `Bit_toggleAll(b) = ~b`. -/
def Bit_toggleAll (b : Nat) : Nat := Bit_not b

/-- `Bit_filterLeft(b, n)`: keep only the `n` leftmost (most significant)
bits: `shiftLeft(shiftRight(b, BIT_SIZE - n), BIT_SIZE - n)`. -/
def Bit_filterLeft (b n : Nat) : Nat :=
  Bit_shiftLeft (Bit_shiftRight b (BIT_SIZE - n)) (BIT_SIZE - n)

/-- `Bit_filterRight(b, n)`: keep only the `n` rightmost (least significant)
bits: `shiftRight(shiftLeft(b, BIT_SIZE - n), BIT_SIZE - n)`. -/
def Bit_filterRight (b n : Nat) : Nat :=
  Bit_shiftRight (Bit_shiftLeft b (BIT_SIZE - n)) (BIT_SIZE - n)

/-- `Bit_filterSectionIncl(b, from, to) =
filterLeft(filterRight(b, to), BIT_SIZE - from)` (arguments here named
`f`, `t` because `from` is reserved in Lean). -/
def Bit_filterSectionIncl (b f t : Nat) : Nat :=
  Bit_filterLeft (Bit_filterRight b t) (BIT_SIZE - f)

/-- `Bit_getSection(b, from, to) =
shiftRight(filterSectionIncl(b, from, to), from)`. -/
def Bit_getSection (b f t : Nat) : Nat :=
  Bit_shiftRight (Bit_filterSectionIncl b f t) f

/-- `Bit_addRight(b, add) = Bit_OR(Bit_shiftLeft(b, 1), add)` where the
C `bool` argument contributes 0 or 1. -/
def Bit_addRight (b : Nat) (add : Bool) : Nat :=
  Bit_OR (Bit_shiftLeft b 1) (if add then 1 else 0)

/-- `Bit_addBitsLeft(b, left, n) =
OR(shiftRight(b, n), shiftLeft(filterRight(left, n), BIT_SIZE - n))`. -/
def Bit_addBitsLeft (b left n : Nat) : Nat :=
  Bit_OR (Bit_shiftRight b n) (Bit_shiftLeft (Bit_filterRight left n) (BIT_SIZE - n))

/-- `Bit_addBitsRight(b, right, n) =
OR(shiftLeft(b, n), filterRight(right, n))`. -/
def Bit_addBitsRight (b right n : Nat) : Nat :=
  Bit_OR (Bit_shiftLeft b n) (Bit_filterRight right n)

/-- `Bit_getAndRemoveRight(*b)`: read bit 1, then `*b >>= 1`.  Returned as
the pair (removed bit, updated register). -/
def Bit_getAndRemoveRight (b : Nat) : Bool × Nat :=
  (Bit_get b 1, Bit_shiftRight b 1)

/-- The `while (i--) rev = Bit_addRight(rev, Bit_getAndRemoveRight(&b));`
loop of `Bit_reverse`, with loop counter `i` made explicit. -/
def Bit_reverse_loop : Nat → Nat → Nat → Nat
  | 0, _, rev => rev
  | i + 1, b, rev =>
      Bit_reverse_loop i (Bit_getAndRemoveRight b).2
        (Bit_addRight rev (Bit_getAndRemoveRight b).1)

/-- `Bit_reverse(b)`: run the consume-and-append loop `BIT_SIZE` times
starting from `rev = 0`. -/
def Bit_reverse (b : Nat) : Nat := Bit_reverse_loop BIT_SIZE b 0

/-- `Bit_rotateLeft(b, n) =
addBitsRight(b, getSection(b, BIT_SIZE - n, BIT_SIZE), n)`. -/
def Bit_rotateLeft (b n : Nat) : Nat :=
  Bit_addBitsRight b (Bit_getSection b (BIT_SIZE - n) BIT_SIZE) n

/-- `Bit_rotateRight(b, n) = addBitsLeft(b, getSection(b, 0, n), n)`. -/
def Bit_rotateRight (b n : Nat) : Nat :=
  Bit_addBitsLeft b (Bit_getSection b 0 n) n

/-- `Bit_count1(b)`: the `while (b) if (Bit_getAndRemoveRight(&b)) i++;`
loop — consume the low bit until the register is 0, counting the 1s. -/
def Bit_count1 (b : Nat) : Nat :=
  if h : b = 0 then 0
  else (if (Bit_getAndRemoveRight b).1 then 1 else 0) +
    Bit_count1 (Bit_getAndRemoveRight b).2
termination_by b
decreasing_by
  simp only [Bit_getAndRemoveRight, Bit_shiftRight, Nat.shiftRight_eq_div_pow,
    pow_one]
  omega

/-- Loop body of `Bit_fromStringMSB`: characters other than '0' and '1'
are skipped; a recognized character `c` is appended via
`Bit_addRight(b, c - '0')`. -/
def Bit_fromStep (b : Nat) (c : Char) : Nat :=
  if c == '1' || c == '0' then Bit_addRight b (c == '1') else b

/-- `Bit_fromStringMSB(s)`: scan the characters left to right starting
from `b = 0`. -/
def Bit_fromStringMSB (s : List Char) : Nat := s.foldl Bit_fromStep 0

/-- `Bit_fromStringLSB(s) = Bit_reverse(Bit_fromStringMSB(s))`. -/
def Bit_fromStringLSB (s : List Char) : Nat :=
  Bit_reverse (Bit_fromStringMSB s)

/-- The `while (i--) s[i] = (Bit_getAndRemoveRight(&b) ? '1' : '0');`
loop of `Bit_toStringBinMSB`: consume from the LSB, filling the string
from its last position backwards. -/
def Bit_toStr_loop : Nat → Nat → List Char → List Char
  | 0, _, s => s
  | i + 1, b, s =>
      Bit_toStr_loop i (Bit_getAndRemoveRight b).2
        ((if (Bit_getAndRemoveRight b).1 then '1' else '0') :: s)

/-- `Bit_toStringBinMSB(b)`: the BIT_SIZE-character binary string,
most significant bit first. -/
def Bit_toStringBinMSB (b : Nat) : List Char := Bit_toStr_loop BIT_SIZE b []

/-- `Bit_toStringBinLSB(b) = Bit_toStringBinMSB(Bit_reverse(b))`. -/
def Bit_toStringBinLSB (b : Nat) : List Char :=
  Bit_toStringBinMSB (Bit_reverse b)

/-- Uppercase hexadecimal digit character, as printf's `%X` produces
('0'..'9' are codes 48..57, 'A'..'F' are codes 65..70). -/
def hexDigitChar (n : Nat) : Char :=
  if n < 10 then Char.ofNat (48 + n) else Char.ofNat (55 + n)

/-- Digit loop of printf's unsigned conversion: divide by the base until
the value is 0, emitting digits from the least significant end.  The
first argument is fuel bounding the iteration count; the loop stops on
`n = 0`, and any fuel `≥ n` is enough since `n` strictly shrinks. -/
def hexDigitsAux : Nat → Nat → List Char → List Char
  | 0, _, acc => acc
  | fuel + 1, n, acc =>
      if n = 0 then acc
      else hexDigitsAux fuel (n / 16) (hexDigitChar (n % 16) :: acc)

/-- Minimal uppercase hexadecimal digit string of `n` (at least one
digit), as printf's `%llX` conversion produces. -/
def hexDigitsMin (n : Nat) : List Char :=
  if n = 0 then ['0'] else hexDigitsAux n n []

/-- Model of the statement `printf("%#018llX", b);` in `Bit_printHex`,
per C printf semantics: the `#` flag writes the prefix `0X` (capital X,
like the digits) only when the value is nonzero; the `0` flag pads with
zeros after the prefix up to the field width 18. -/
def Bit_printHex_output (b : Nat) : List Char :=
  let pre : List Char := if b = 0 then [] else ['0', 'X']
  pre ++ List.replicate (18 - (pre.length + (hexDigitsMin b).length)) '0' ++
    hexDigitsMin b

/-- Fixed-width conversion: exactly `k` uppercase hexadecimal digits of
`n`, zero padded (first argument is the digit count). -/
def hexDigitsFix : Nat → Nat → List Char → List Char
  | 0, _, acc => acc
  | k + 1, n, acc => hexDigitsFix k (n / 16) (hexDigitChar (n % 16) :: acc)

/-- The 16-digit zero-padded uppercase hexadecimal string of `n`. -/
def hexDigits16 (n : Nat) : List Char := hexDigitsFix 16 n []

/-- The output format claim C9 describes: a literal `0x` prefix followed
by the zero-padded 16-digit uppercase hexadecimal representation, for
every value. -/
def spec_printHex_output (b : Nat) : List Char := '0' :: 'x' :: hexDigits16 b

/-- The values of the recognized ('0'/'1') characters of `s`, in order. -/
def recognizedBits (s : List Char) : List Bool :=
  (s.filter (fun c => c == '1' || c == '0')).map (fun c => c == '1')

/-- The reading claim C4 gives `Bit_fromStringLSB`: the first recognized
character is the least-significant bit of the result. -/
def spec_lsbValue : List Bool → Nat
  | [] => 0
  | c :: cs => (if c then 1 else 0) + 2 * spec_lsbValue cs

/-- Value of a bit list read most-significant-first (no truncation). -/
def msbValue : List Bool → Nat
  | [] => 0
  | c :: cs => (if c then 1 else 0) * 2 ^ cs.length + msbValue cs

/-- Reversal of the low `i` bits of `b`: bit `j` of the result (for
`j < i`) is bit `i - 1 - j` of `b`. -/
def natRevBits : Nat → Nat → Nat
  | 0, _ => 0
  | i + 1, b => b % 2 * 2 ^ i + natRevBits i (b / 2)

/-! ### Arithmetic characterizations of the primitives -/

@[simp] theorem BIT_SIZE_eq : BIT_SIZE = 64 := rfl

theorem Bit_shiftLeft_eq (b n : Nat) : Bit_shiftLeft b n = b * 2 ^ n % 2 ^ 64 := by
  simp [Bit_shiftLeft, Nat.shiftLeft_eq]

theorem Bit_shiftRight_eq (b n : Nat) : Bit_shiftRight b n = b / 2 ^ n := by
  simp [Bit_shiftRight, Nat.shiftRight_eq_div_pow]

theorem two_pow_split {n : Nat} (_h : n ≤ 64) :
    (2 : Nat) ^ 64 = 2 ^ n * 2 ^ (64 - n) := by
  rw [← pow_add]
  congr 1
  omega

theorem Bit_filterRight_eq (b n : Nat) (h : n ≤ 64) :
    Bit_filterRight b n = b % 2 ^ n := by
  simp only [Bit_filterRight, Bit_shiftLeft, Bit_shiftRight, BIT_SIZE_eq,
    Nat.shiftLeft_eq, Nat.shiftRight_eq_div_pow]
  rw [two_pow_split h, Nat.mul_mod_mul_right,
    Nat.mul_div_cancel _ (Nat.two_pow_pos _)]

theorem Bit_filterLeft_eq (b n : Nat) (hb : b < 2 ^ 64) (_h : n ≤ 64) :
    Bit_filterLeft b n = b / 2 ^ (64 - n) * 2 ^ (64 - n) := by
  simp only [Bit_filterLeft, Bit_shiftLeft, Bit_shiftRight, BIT_SIZE_eq,
    Nat.shiftLeft_eq, Nat.shiftRight_eq_div_pow]
  exact Nat.mod_eq_of_lt (Nat.lt_of_le_of_lt (Nat.div_mul_le_self _ _) hb)

theorem Bit_getSection_eq (b f t : Nat) (_hb : b < 2 ^ 64) (hft : f ≤ t)
    (ht : t ≤ 64) : Bit_getSection b f t = b % 2 ^ t / 2 ^ f := by
  have h2 : b % 2 ^ t < 2 ^ 64 :=
    Nat.lt_of_lt_of_le (Nat.mod_lt _ (Nat.two_pow_pos _))
      (Nat.pow_le_pow_right (by norm_num) ht)
  have h4 := Bit_filterLeft_eq (b % 2 ^ t) (64 - f) h2 (by omega)
  have h3 : 64 - (64 - f) = f := by omega
  rw [h3] at h4
  simp only [Bit_getSection, Bit_filterSectionIncl, BIT_SIZE_eq,
    Bit_filterRight_eq b t ht, h4, Bit_shiftRight, Nat.shiftRight_eq_div_pow]
  rw [Nat.mul_div_cancel _ (Nat.two_pow_pos _)]

theorem Bit_mask1_in_range (n : Nat) (h1 : 1 ≤ n) (h2 : n ≤ 64) :
    Bit_mask1 n = 2 ^ (n - 1) := by
  have hn : ¬ n < 1 := by omega
  have hn' : ¬ n > BIT_SIZE := by simp only [BIT_SIZE_eq]; omega
  rw [Bit_mask1, if_neg hn, if_neg hn']
  simp only [Bit_shiftLeft, Nat.shiftLeft_eq, one_mul, BIT_SIZE_eq]
  exact Nat.mod_eq_of_lt (Nat.pow_lt_pow_right (by norm_num) (by omega))

theorem Bit_get_testBit (b n : Nat) (h1 : 1 ≤ n) (h2 : n ≤ 64) :
    Bit_get b n = b.testBit (n - 1) := by
  simp only [Bit_get, Bit_AND, Bit_mask1_in_range n h1 h2, Nat.and_two_pow]
  cases h : b.testBit (n - 1) <;>
    simp [h, Nat.pos_iff_ne_zero.mp (Nat.two_pow_pos (n - 1))]

theorem lor_mul_pow_add {k a c : Nat} (hc : c < 2 ^ k) :
    a * 2 ^ k ||| c = a * 2 ^ k + c := by
  rw [Nat.mul_comm a, ← Nat.mul_add_lt_is_or hc]

theorem Bit_addRight_eq (b : Nat) (x : Bool) :
    Bit_addRight b x = (2 * b + (if x then 1 else 0)) % 2 ^ 64 := by
  have hx1 : (if x then (1 : Nat) else 0) < 2 ^ 1 := by cases x <;> norm_num
  have hx2 : (if x then (1 : Nat) else 0) < 2 := by cases x <;> norm_num
  simp only [Bit_addRight, Bit_OR, Bit_shiftLeft, Nat.shiftLeft_eq, BIT_SIZE_eq]
  have hsplit : b * 2 % 2 ^ 64 = b * 2 % 2 ^ 64 / 2 * 2 ^ 1 := by
    rw [pow_one]
    omega
  rw [hsplit, lor_mul_pow_add hx1, ← hsplit]
  omega

/-! ### Rotation -/

theorem Bit_rotateRight_eq (b n : Nat) (hb : b < 2 ^ 64) (hn : n ≤ 64) :
    Bit_rotateRight b n = b / 2 ^ n + b % 2 ^ n * 2 ^ (64 - n) := by
  have hsec : Bit_getSection b 0 n = b % 2 ^ n := by
    rw [Bit_getSection_eq b 0 n hb (Nat.zero_le _) hn, pow_zero, Nat.div_one]
  have hmod : b % 2 ^ n < 2 ^ n := Nat.mod_lt _ (Nat.two_pow_pos _)
  have hmm : b % 2 ^ n % 2 ^ n = b % 2 ^ n := Nat.mod_eq_of_lt hmod
  have hsmall : b % 2 ^ n * 2 ^ (64 - n) < 2 ^ 64 := by
    calc b % 2 ^ n * 2 ^ (64 - n) < 2 ^ n * 2 ^ (64 - n) :=
          mul_lt_mul_of_pos_right hmod (Nat.two_pow_pos _)
      _ = 2 ^ 64 := (two_pow_split hn).symm
  have hdiv : b / 2 ^ n < 2 ^ (64 - n) := by
    rw [Nat.div_lt_iff_lt_mul (Nat.two_pow_pos n)]
    calc b < 2 ^ 64 := hb
      _ = 2 ^ (64 - n) * 2 ^ n := by rw [← pow_add]; congr 1; omega
  simp only [Bit_rotateRight, Bit_addBitsLeft, Bit_OR, BIT_SIZE_eq, hsec,
    Bit_filterRight_eq _ _ hn, hmm, Bit_shiftLeft, Nat.shiftLeft_eq,
    Bit_shiftRight, Nat.shiftRight_eq_div_pow]
  rw [Nat.mod_eq_of_lt hsmall, Nat.lor_comm, lor_mul_pow_add hdiv]
  omega

theorem Bit_rotateLeft_eq (b n : Nat) (hb : b < 2 ^ 64) (hn : n ≤ 64) :
    Bit_rotateLeft b n = b % 2 ^ (64 - n) * 2 ^ n + b / 2 ^ (64 - n) := by
  have hsec : Bit_getSection b (64 - n) 64 = b / 2 ^ (64 - n) := by
    rw [Bit_getSection_eq b (64 - n) 64 hb (by omega) (le_refl _),
      Nat.mod_eq_of_lt hb]
  have hdiv : b / 2 ^ (64 - n) < 2 ^ n := by
    rw [Nat.div_lt_iff_lt_mul (Nat.two_pow_pos _)]
    calc b < 2 ^ 64 := hb
      _ = 2 ^ n * 2 ^ (64 - n) := two_pow_split hn
  have hmm : b / 2 ^ (64 - n) % 2 ^ n = b / 2 ^ (64 - n) := Nat.mod_eq_of_lt hdiv
  have hsplit : (2 : Nat) ^ 64 = 2 ^ (64 - n) * 2 ^ n := by
    rw [← pow_add]
    congr 1
    omega
  simp only [Bit_rotateLeft, Bit_addBitsRight, Bit_OR, BIT_SIZE_eq, hsec,
    Bit_filterRight_eq _ _ hn, hmm, Bit_shiftLeft, Nat.shiftLeft_eq]
  rw [hsplit, Nat.mul_mod_mul_right, lor_mul_pow_add hdiv]

/-- Claim C2: for every register `b` and every `n` with `0 ≤ n ≤ N`,
`rotateLeft(rotateRight(b, n), n) == b` and
`rotateRight(rotateLeft(b, n), n) == b`; in particular each rotation by
`n = 0` is the identity. -/
theorem claim_C2_rotate_roundtrip (b n : Nat) (hb : b < 2 ^ BIT_SIZE)
    (hn : n ≤ BIT_SIZE) :
    Bit_rotateLeft (Bit_rotateRight b n) n = b ∧
    Bit_rotateRight (Bit_rotateLeft b n) n = b ∧
    Bit_rotateLeft b 0 = b ∧ Bit_rotateRight b 0 = b := by
  rw [BIT_SIZE_eq] at hb hn
  have hp : 0 < 2 ^ n := Nat.two_pow_pos n
  have hq : 0 < 2 ^ (64 - n) := Nat.two_pow_pos (64 - n)
  have hpq : (2 : Nat) ^ n * 2 ^ (64 - n) = 2 ^ 64 := (two_pow_split hn).symm
  have hmodp : b % 2 ^ n < 2 ^ n := Nat.mod_lt _ hp
  have hmodq : b % 2 ^ (64 - n) < 2 ^ (64 - n) := Nat.mod_lt _ hq
  have hdivp : b / 2 ^ n < 2 ^ (64 - n) := by
    rw [Nat.div_lt_iff_lt_mul hp]
    calc b < 2 ^ 64 := hb
      _ = 2 ^ (64 - n) * 2 ^ n := by rw [← pow_add]; congr 1; omega
  have hdivq : b / 2 ^ (64 - n) < 2 ^ n := by
    rw [Nat.div_lt_iff_lt_mul hq]
    calc b < 2 ^ 64 := hb
      _ = 2 ^ n * 2 ^ (64 - n) := two_pow_split hn
  refine ⟨?_, ?_, ?_, ?_⟩
  · have hc : b / 2 ^ n + b % 2 ^ n * 2 ^ (64 - n) < 2 ^ 64 := by
      calc b / 2 ^ n + b % 2 ^ n * 2 ^ (64 - n)
          < 2 ^ (64 - n) + b % 2 ^ n * 2 ^ (64 - n) := by omega
        _ = (b % 2 ^ n + 1) * 2 ^ (64 - n) := by ring
        _ ≤ 2 ^ n * 2 ^ (64 - n) := Nat.mul_le_mul_right _ (by omega)
        _ = 2 ^ 64 := hpq
    rw [Bit_rotateRight_eq b n hb hn, Bit_rotateLeft_eq _ n hc hn,
      Nat.add_mul_mod_self_right, Nat.mod_eq_of_lt hdivp,
      Nat.add_mul_div_right _ _ hq, Nat.div_eq_of_lt hdivp]
    calc b / 2 ^ n * 2 ^ n + (0 + b % 2 ^ n)
        = 2 ^ n * (b / 2 ^ n) + b % 2 ^ n := by ring
      _ = b := Nat.div_add_mod b (2 ^ n)
  · have hd : b % 2 ^ (64 - n) * 2 ^ n + b / 2 ^ (64 - n) < 2 ^ 64 := by
      calc b % 2 ^ (64 - n) * 2 ^ n + b / 2 ^ (64 - n)
          < b % 2 ^ (64 - n) * 2 ^ n + 2 ^ n := by omega
        _ = (b % 2 ^ (64 - n) + 1) * 2 ^ n := by ring
        _ ≤ 2 ^ (64 - n) * 2 ^ n := Nat.mul_le_mul_right _ (by omega)
        _ = 2 ^ 64 := by rw [← pow_add]; congr 1; omega
    have hcomm : b % 2 ^ (64 - n) * 2 ^ n + b / 2 ^ (64 - n)
        = b / 2 ^ (64 - n) + b % 2 ^ (64 - n) * 2 ^ n := by omega
    rw [Bit_rotateLeft_eq b n hb hn, Bit_rotateRight_eq _ n hd hn, hcomm,
      Nat.add_mul_mod_self_right, Nat.mod_eq_of_lt hdivq,
      Nat.add_mul_div_right _ _ hp, Nat.div_eq_of_lt hdivq,
      Nat.zero_add, Nat.mul_comm]
    exact Nat.mod_add_div b (2 ^ (64 - n))
  · rw [Bit_rotateLeft_eq b 0 hb (Nat.zero_le _)]
    simp only [Nat.sub_zero, pow_zero, Nat.mul_one, Nat.mod_eq_of_lt hb,
      Nat.div_eq_of_lt hb, Nat.add_zero]
  · rw [Bit_rotateRight_eq b 0 hb (Nat.zero_le _)]
    simp only [pow_zero, Nat.div_one, Nat.mod_one, Nat.zero_mul, Nat.add_zero]

/-- Witness for C2 at `b = 5`, `n = 3`. -/
theorem claim_C2_rotate_roundtrip_witness :
    (5 < 2 ^ BIT_SIZE ∧ 3 ≤ BIT_SIZE) ∧
    (Bit_rotateLeft (Bit_rotateRight 5 3) 3 = 5 ∧
     Bit_rotateRight (Bit_rotateLeft 5 3) 3 = 5 ∧
     Bit_rotateLeft 5 0 = 5 ∧ Bit_rotateRight 5 0 = 5) :=
  ⟨⟨by norm_num, by norm_num⟩, claim_C2_rotate_roundtrip 5 3 (by norm_num) (by norm_num)⟩

/-! ### Shifts by at least the word width -/

/-- Claim C6: for every register `b` and every shift amount `n ≥ N`,
`shiftLeft(b, n) == 0` and `shiftRight(b, n) == 0` (logical zero-fill
shifts; shifting by at least the word width yields 0). -/
theorem claim_C6_shift_by_width (b n : Nat) (hb : b < 2 ^ BIT_SIZE)
    (hn : BIT_SIZE ≤ n) : Bit_shiftLeft b n = 0 ∧ Bit_shiftRight b n = 0 := by
  rw [BIT_SIZE_eq] at hb hn
  constructor
  · rw [Bit_shiftLeft_eq]
    have h : (2 : Nat) ^ n = 2 ^ (n - 64) * 2 ^ 64 := by
      rw [← pow_add]
      congr 1
      omega
    rw [h, ← Nat.mul_assoc, Nat.mul_mod_left]
  · rw [Bit_shiftRight_eq]
    exact Nat.div_eq_of_lt
      (Nat.lt_of_lt_of_le hb (Nat.pow_le_pow_right (by norm_num) hn))

/-- Witness for C6 at `b = 7`, `n = 64`. -/
theorem claim_C6_shift_by_width_witness :
    (7 < 2 ^ BIT_SIZE ∧ BIT_SIZE ≤ 64) ∧
    (Bit_shiftLeft 7 64 = 0 ∧ Bit_shiftRight 7 64 = 0) :=
  ⟨⟨by decide, by decide⟩, claim_C6_shift_by_width 7 64 (by decide) (by decide)⟩

/-! ### Population count -/

theorem Bit_count1_zero : Bit_count1 0 = 0 := by
  rw [Bit_count1.eq_def]
  simp

theorem Bit_count1_eq (b : Nat) : Bit_count1 b = b % 2 + Bit_count1 (b / 2) := by
  rcases Nat.eq_zero_or_pos b with h | h
  · subst h
    simp [Bit_count1_zero]
  · rw [Bit_count1.eq_def]
    have hb : ¬ b = 0 := by omega
    rw [dif_neg hb]
    have h1 : (Bit_getAndRemoveRight b).1 = decide (b % 2 = 1) := by
      simp only [Bit_getAndRemoveRight, Bit_get, Bit_AND]
      have hm : Bit_mask1 1 = 1 := by
        rw [Bit_mask1_in_range 1 (le_refl _) (by norm_num)]
        norm_num
      rw [hm, Nat.and_one_is_mod]
      rcases Nat.mod_two_eq_zero_or_one b with h2 | h2 <;> simp [h2]
    have h2 : (Bit_getAndRemoveRight b).2 = b / 2 := by
      simp only [Bit_getAndRemoveRight, Bit_shiftRight,
        Nat.shiftRight_eq_div_pow, pow_one]
    rw [h1, h2]
    rcases Nat.mod_two_eq_zero_or_one b with h3 | h3 <;> simp [h3]

theorem Bit_count1_two_pow (k : Nat) : Bit_count1 (2 ^ k) = 1 := by
  induction k with
  | zero =>
      rw [pow_zero, Bit_count1_eq]
      norm_num [Bit_count1_zero]
  | succ k ih =>
      rw [Bit_count1_eq]
      have h1 : 2 ^ (k + 1) % 2 = 0 := by
        rw [pow_succ]
        exact Nat.mul_mod_left _ 2
      have h2 : 2 ^ (k + 1) / 2 = 2 ^ k := by
        rw [pow_succ, Nat.mul_div_cancel _ (by norm_num)]
      rw [h1, h2, ih]

theorem Bit_count1_add_compl (k : Nat) :
    ∀ b, b < 2 ^ k → Bit_count1 b + Bit_count1 (2 ^ k - 1 - b) = k := by
  induction k with
  | zero =>
      intro b hb
      have h : b = 0 := by omega
      subst h
      simpa using Bit_count1_zero
  | succ k ih =>
      intro b hb
      have h2 : (2 : Nat) ^ (k + 1) = 2 * 2 ^ k := by
        rw [pow_succ]
        ring
      rw [Bit_count1_eq b, Bit_count1_eq (2 ^ (k + 1) - 1 - b)]
      have hmod : (2 ^ (k + 1) - 1 - b) % 2 = 1 - b % 2 := by omega
      have hdiv : (2 ^ (k + 1) - 1 - b) / 2 = 2 ^ k - 1 - b / 2 := by omega
      have hb2 : b / 2 < 2 ^ k := by omega
      have := ih (b / 2) hb2
      rw [hmod, hdiv]
      omega

theorem Bit_toggleAll_eq (b : Nat) (hb : b < 2 ^ 64) :
    Bit_toggleAll b = 2 ^ 64 - 1 - b := by
  simp only [Bit_toggleAll, Bit_not, BIT_SIZE_eq]
  refine Nat.eq_of_testBit_eq fun j => ?_
  rw [Nat.testBit_xor]
  have hsub : (2 : Nat) ^ 64 - 1 - b = 2 ^ 64 - (b + 1) := by omega
  rw [hsub, Nat.testBit_two_pow_sub_succ hb, Nat.testBit_two_pow_sub_one]
  rcases Nat.lt_or_ge j 64 with hj | hj
  · simp [hj]
  · have h1 : ¬ j < 64 := by omega
    simp [h1, Nat.testBit_lt_two_pow
      (Nat.lt_of_lt_of_le hb (Nat.pow_le_pow_right (by norm_num) hj))]

/-- Claim C8: for every register `b`,
`count1(b) + count1(toggleAll(b)) == N` — the set-bit counts of a value
and its full-width complement sum to the word width. -/
theorem claim_C8_count1_complement (b : Nat) (hb : b < 2 ^ BIT_SIZE) :
    Bit_count1 b + Bit_count1 (Bit_toggleAll b) = BIT_SIZE := by
  rw [BIT_SIZE_eq] at hb ⊢
  rw [Bit_toggleAll_eq b hb]
  exact Bit_count1_add_compl 64 b hb

/-- Witness for C8 at `b = 5`. -/
theorem claim_C8_count1_complement_witness :
    5 < 2 ^ BIT_SIZE ∧ Bit_count1 5 + Bit_count1 (Bit_toggleAll 5) = BIT_SIZE :=
  ⟨by decide, claim_C8_count1_complement 5 (by decide)⟩

/-! ### Single-bit masks -/

/-- Claim C7: for every index `n`, `mask1(n)` is a register with exactly
one bit set, at position `n` when `1 ≤ n ≤ N`, at position 1 when
`n < 1`, and at position `N` when `n > N` (the exponent
`min (max n 1) N - 1` expresses exactly this clamp); in particular
`mask1(0) == mask1(1)` and `mask1(N+5) == mask1(N)`. -/
theorem claim_C7_mask1_clamp (n : Nat) :
    Bit_mask1 n = 2 ^ (min (max n 1) BIT_SIZE - 1) ∧
    Bit_count1 (Bit_mask1 n) = 1 ∧
    Bit_mask1 0 = Bit_mask1 1 ∧ Bit_mask1 (BIT_SIZE + 5) = Bit_mask1 BIT_SIZE := by
  have hc : (if n < 1 then 1 else if n > BIT_SIZE then BIT_SIZE else n) =
      min (max n 1) BIT_SIZE := by
    simp only [BIT_SIZE_eq]
    split_ifs <;> omega
  have h1 : Bit_mask1 n = 2 ^ (min (max n 1) BIT_SIZE - 1) := by
    rw [Bit_mask1, hc, Bit_shiftLeft_eq, one_mul]
    refine Nat.mod_eq_of_lt (Nat.pow_lt_pow_right (by norm_num) ?_)
    simp only [BIT_SIZE_eq]
    omega
  refine ⟨h1, ?_, by decide, by decide⟩
  rw [h1, Bit_count1_two_pow]

/-! ### Frame effect of the single-bit mutators -/

/-- Claim C10: for every register `b` and indices `n`, `m` in `[1, N]`
with `m ≠ n`, `turnOn`, `turnOff` and `toggle` at `n` leave bit `m`
unchanged. -/
theorem claim_C10_mutator_frame (b n m : Nat) (hn1 : 1 ≤ n)
    (hn2 : n ≤ BIT_SIZE) (hm1 : 1 ≤ m) (hm2 : m ≤ BIT_SIZE) (hnm : m ≠ n) :
    Bit_get (Bit_turnOn b n) m = Bit_get b m ∧
    Bit_get (Bit_turnOff b n) m = Bit_get b m ∧
    Bit_get (Bit_toggle b n) m = Bit_get b m := by
  rw [BIT_SIZE_eq] at hn2 hm2
  have hmask := Bit_mask1_in_range n hn1 hn2
  have hne : n - 1 ≠ m - 1 := by omega
  have hj : m - 1 < 64 := by omega
  refine ⟨?_, ?_, ?_⟩
  · rw [Bit_get_testBit _ m hm1 (by omega), Bit_get_testBit b m hm1 (by omega)]
    simp only [Bit_turnOn, Bit_OR, hmask, Nat.testBit_lor,
      Nat.testBit_two_pow_of_ne hne, Bool.or_false]
  · rw [Bit_get_testBit _ m hm1 (by omega), Bit_get_testBit b m hm1 (by omega)]
    simp only [Bit_turnOff, Bit_AND, Bit_not, hmask, BIT_SIZE_eq,
      Nat.testBit_and, Nat.testBit_xor, Nat.testBit_two_pow_of_ne hne,
      Nat.testBit_two_pow_sub_one]
    simp [hj]
  · rw [Bit_get_testBit _ m hm1 (by omega), Bit_get_testBit b m hm1 (by omega)]
    simp only [Bit_toggle, Bit_XOR, hmask, Nat.testBit_xor,
      Nat.testBit_two_pow_of_ne hne, Bool.xor_false]

/-- Witness for C10 at `b = 5`, `n = 2`, `m = 3`. -/
theorem claim_C10_mutator_frame_witness :
    (1 ≤ 2 ∧ 2 ≤ BIT_SIZE ∧ 1 ≤ 3 ∧ 3 ≤ BIT_SIZE ∧ 3 ≠ 2) ∧
    (Bit_get (Bit_turnOn 5 2) 3 = Bit_get 5 3 ∧
     Bit_get (Bit_turnOff 5 2) 3 = Bit_get 5 3 ∧
     Bit_get (Bit_toggle 5 2) 3 = Bit_get 5 3) :=
  ⟨⟨by decide, by decide, by decide, by decide, by decide⟩,
   claim_C10_mutator_frame 5 2 3 (by decide) (by decide) (by decide)
     (by decide) (by decide)⟩

/-! ### `getSection` (claim C1) -/

/-- Claim C1 counterexample: the claim states
`getSection(0b11110000, 5, 8) == 15`, but the code keeps only bits 6..8
of the filtered range and shifts right by `from = 5`, yielding 7. -/
theorem claim_C1_counterexample :
    Bit_getSection 240 5 8 = 7 ∧ Bit_getSection 240 5 8 ≠ 15 := by
  constructor <;> decide

/-- Claim C1 (amended): for `1 ≤ from ≤ to ≤ N`, `getSection(b, from, to)`
equals the bits of `b` in the range `[from+1, to]` (as produced by
`filterSectionIncl`, which drops bit `from` itself) shifted right by
`from` positions, so that bit `from + 1` of `b` becomes bit 1 of the
result: bit `i` of the result is bit `from + i` of `b` when
`from + i ≤ to` and 0 otherwise; in particular
`getSection(0b11110000, 5, 8) == 7`. -/
theorem claim_C1_getSection_amended (b f t i : Nat) (hb : b < 2 ^ BIT_SIZE)
    (hf : 1 ≤ f) (hft : f ≤ t) (ht : t ≤ BIT_SIZE) (hi1 : 1 ≤ i)
    (hi2 : i ≤ BIT_SIZE) :
    Bit_get (Bit_getSection b f t) i = (decide (f + i ≤ t) && Bit_get b (f + i)) := by
  rw [BIT_SIZE_eq] at hb ht hi2
  rw [Bit_get_testBit _ i hi1 hi2, Bit_getSection_eq b f t hb hft ht,
    ← Nat.shiftRight_eq_div_pow, Nat.testBit_shiftRight, Nat.testBit_mod_two_pow]
  rcases Nat.lt_or_ge (f + i) 65 with hfi | hfi
  · rw [Bit_get_testBit b (f + i) (by omega) (by omega)]
    have h3 : f + (i - 1) = f + i - 1 := by omega
    rw [h3]
    congr 1
    simp only [decide_eq_decide]
    omega
  · have h4 : ¬ (f + (i - 1) < t) := by omega
    have h5 : ¬ (f + i ≤ t) := by omega
    simp [h4, h5]

/-- Witness for the amended C1 at `b = 240 = 0b11110000`, `from = 5`,
`to = 8`, `i = 1`. -/
theorem claim_C1_getSection_amended_witness :
    (240 < 2 ^ BIT_SIZE ∧ 1 ≤ 5 ∧ 5 ≤ 8 ∧ 8 ≤ BIT_SIZE ∧ 1 ≤ 1 ∧ 1 ≤ BIT_SIZE) ∧
    Bit_get (Bit_getSection 240 5 8) 1 = (decide (5 + 1 ≤ 8) && Bit_get 240 (5 + 1)) :=
  ⟨⟨by decide, by decide, by decide, by decide, by decide, by decide⟩,
   claim_C1_getSection_amended 240 5 8 1 (by decide) (by decide) (by decide)
     (by decide) (by decide) (by decide)⟩

/-! ### The consume-from-the-right primitive -/

theorem getAndRemoveRight_fst (b : Nat) :
    (Bit_getAndRemoveRight b).1 = decide (b % 2 = 1) := by
  simp only [Bit_getAndRemoveRight, Bit_get, Bit_AND]
  have hm : Bit_mask1 1 = 1 := by
    rw [Bit_mask1_in_range 1 (le_refl _) (by norm_num)]
    norm_num
  rw [hm, Nat.and_one_is_mod]
  rcases Nat.mod_two_eq_zero_or_one b with h2 | h2 <;> simp [h2]

theorem getAndRemoveRight_snd (b : Nat) : (Bit_getAndRemoveRight b).2 = b / 2 := by
  simp only [Bit_getAndRemoveRight, Bit_shiftRight, Nat.shiftRight_eq_div_pow,
    pow_one]

theorem mod_mul_add_push (x y z m : Nat) :
    (x % m * y + z) % m = (x * y + z) % m := by
  rw [Nat.add_mod, Nat.mul_mod, Nat.mod_mod_of_dvd x (dvd_refl m),
    ← Nat.mul_mod, ← Nat.add_mod]

/-! ### Bit reversal -/

theorem natRevBits_succ (i x : Nat) :
    natRevBits (i + 1) x = x % 2 * 2 ^ i + natRevBits i (x / 2) := rfl

theorem natRevBits_lt (i : Nat) : ∀ b, natRevBits i b < 2 ^ i := by
  induction i with
  | zero =>
      intro b
      simp [natRevBits]
  | succ i ih =>
      intro b
      have h2 : (2 : Nat) ^ (i + 1) = 2 * 2 ^ i := by
        rw [pow_succ]
        ring
      have h3 := ih (b / 2)
      simp only [natRevBits]
      rcases Nat.mod_two_eq_zero_or_one b with h | h <;> rw [h] <;> omega

theorem natRevBits_double (k : Nat) : ∀ m, m < 2 ^ k →
    natRevBits (k + 1) m = 2 * natRevBits k m := by
  induction k with
  | zero =>
      intro m hm
      have h0 : m = 0 := by omega
      subst h0
      simp [natRevBits]
  | succ k ih =>
      intro m hm
      have h2 : (2 : Nat) ^ (k + 1) = 2 * 2 ^ k := by
        rw [pow_succ]
        ring
      have hm2 : m / 2 < 2 ^ k := by omega
      rw [natRevBits_succ (k + 1) m, ih (m / 2) hm2, natRevBits_succ k m, h2]
      ring

theorem natRevBits_add_top (k : Nat) : ∀ m, m < 2 ^ k →
    natRevBits (k + 1) (2 ^ k + m) = 1 + 2 * natRevBits k m := by
  induction k with
  | zero =>
      intro m hm
      have h0 : m = 0 := by omega
      subst h0
      simp [natRevBits]
  | succ k ih =>
      intro m hm
      have h2 : (2 : Nat) ^ (k + 1) = 2 * 2 ^ k := by
        rw [pow_succ]
        ring
      have he : (2 ^ (k + 1) + m) % 2 = m % 2 := by omega
      have hd : (2 ^ (k + 1) + m) / 2 = 2 ^ k + m / 2 := by omega
      have hm2 : m / 2 < 2 ^ k := by omega
      rw [natRevBits_succ (k + 1) (2 ^ (k + 1) + m), he, hd, ih (m / 2) hm2,
        natRevBits_succ k m, h2]
      ring

theorem natRevBits_invol (k : Nat) : ∀ b, b < 2 ^ k →
    natRevBits k (natRevBits k b) = b := by
  induction k with
  | zero =>
      intro b hb
      have h0 : b = 0 := by omega
      subst h0
      simp [natRevBits]
  | succ k ih =>
      intro b hb
      have h2 : (2 : Nat) ^ (k + 1) = 2 * 2 ^ k := by
        rw [pow_succ]
        ring
      have hr : natRevBits k (b / 2) < 2 ^ k := natRevBits_lt k (b / 2)
      have hb2 : b / 2 < 2 ^ k := by omega
      rcases Nat.mod_two_eq_zero_or_one b with h | h
      · have e1 : natRevBits (k + 1) b = natRevBits k (b / 2) := by
          simp [natRevBits, h]
        rw [e1, natRevBits_double k _ hr, ih _ hb2]
        omega
      · have e1 : natRevBits (k + 1) b = 2 ^ k + natRevBits k (b / 2) := by
          simp [natRevBits, h]
        rw [e1, natRevBits_add_top k _ hr, ih _ hb2]
        omega

theorem natRevBits_testBit (k : Nat) : ∀ b j, j < k →
    (natRevBits k b).testBit j = b.testBit (k - 1 - j) := by
  induction k with
  | zero =>
      intro b j hj
      omega
  | succ k ih =>
      intro b j hj
      have hr : natRevBits k (b / 2) < 2 ^ k := natRevBits_lt k (b / 2)
      have hdecomp : natRevBits (k + 1) b = 2 ^ k * (b % 2) + natRevBits k (b / 2) := by
        simp only [natRevBits]
        ring
      rw [hdecomp, Nat.testBit_mul_pow_two_add (b % 2) hr]
      rcases Nat.lt_or_ge j k with hjk | hjk
      · rw [if_pos hjk, ih _ _ hjk, Nat.testBit_div_two]
        congr 1
        omega
      · have hjeq : j = k := by omega
        subst hjeq
        rw [if_neg (by omega), Nat.sub_self, Nat.testBit_zero,
          show j + 1 - 1 - j = 0 by omega, Nat.testBit_zero]
        simp only [decide_eq_decide]
        omega

theorem Bit_reverse_loop_eq (i : Nat) : ∀ b rev, rev < 2 ^ 64 →
    Bit_reverse_loop i b rev = (rev * 2 ^ i + natRevBits i b) % 2 ^ 64 := by
  induction i with
  | zero =>
      intro b rev h
      simp only [Bit_reverse_loop, natRevBits, pow_zero, Nat.mul_one,
        Nat.add_zero]
      exact (Nat.mod_eq_of_lt h).symm
  | succ i ih =>
      intro b rev h
      simp only [Bit_reverse_loop, getAndRemoveRight_fst, getAndRemoveRight_snd,
        Bit_addRight_eq]
      have hb1 : (if decide (b % 2 = 1) then (1 : Nat) else 0) = b % 2 := by
        rcases Nat.mod_two_eq_zero_or_one b with h2 | h2 <;> simp [h2]
      rw [hb1, ih (b / 2) _ (Nat.mod_lt _ (by norm_num)), mod_mul_add_push]
      congr 1
      simp only [natRevBits]
      ring

theorem Bit_reverse_eq (b : Nat) : Bit_reverse b = natRevBits 64 b := by
  rw [Bit_reverse, BIT_SIZE_eq, Bit_reverse_loop_eq 64 b 0 (by norm_num),
    Nat.zero_mul, Nat.zero_add]
  exact Nat.mod_eq_of_lt (natRevBits_lt 64 b)

theorem Bit_reverse_lt (b : Nat) : Bit_reverse b < 2 ^ 64 := by
  rw [Bit_reverse_eq]
  exact natRevBits_lt 64 b

/-- Claim C5: for every register `b`, `reverse(reverse(b)) == b`, and for
every index `i` in `[1, N]`, bit `i` of `reverse(b)` equals bit
`N + 1 - i` of `b`; this holds uniformly with no special-casing. -/
theorem claim_C5_reverse_involution (b i : Nat) (hb : b < 2 ^ BIT_SIZE)
    (hi1 : 1 ≤ i) (hi2 : i ≤ BIT_SIZE) :
    Bit_reverse (Bit_reverse b) = b ∧
    Bit_get (Bit_reverse b) i = Bit_get b (BIT_SIZE + 1 - i) := by
  rw [BIT_SIZE_eq] at hb hi2 ⊢
  constructor
  · rw [Bit_reverse_eq, Bit_reverse_eq]
    exact natRevBits_invol 64 b hb
  · rw [Bit_get_testBit _ i hi1 hi2, Bit_get_testBit b (64 + 1 - i) (by omega) (by omega),
      Bit_reverse_eq, natRevBits_testBit 64 b (i - 1) (by omega)]
    congr 1
    omega

/-- Witness for C5 at `b = 5`, `i = 2`. -/
theorem claim_C5_reverse_involution_witness :
    (5 < 2 ^ BIT_SIZE ∧ 1 ≤ 2 ∧ 2 ≤ BIT_SIZE) ∧
    (Bit_reverse (Bit_reverse 5) = 5 ∧
     Bit_get (Bit_reverse 5) 2 = Bit_get 5 (BIT_SIZE + 1 - 2)) :=
  ⟨⟨by decide, by decide, by decide⟩,
   claim_C5_reverse_involution 5 2 (by decide) (by decide) (by decide)⟩

/-! ### String parsing and printing of the register -/

theorem recognizedBits_append (l1 l2 : List Char) :
    recognizedBits (l1 ++ l2) = recognizedBits l1 ++ recognizedBits l2 := by
  simp [recognizedBits, List.filter_append]

theorem fromString_foldl (s : List Char) : ∀ a : Nat,
    s.foldl Bit_fromStep a = (recognizedBits s).foldl Bit_addRight a := by
  induction s with
  | nil =>
      intro a
      rfl
  | cons c s ih =>
      intro a
      simp only [List.foldl_cons, Bit_fromStep]
      cases hc : (c == '1' || c == '0')
      · rw [if_neg (by simp [hc]), ih]
        congr 1
        simp [recognizedBits, List.filter_cons, hc]
      · rw [if_pos (by simp [hc])]
        have hrec : recognizedBits (c :: s) = (c == '1') :: recognizedBits s := by
          simp [recognizedBits, List.filter_cons, hc]
        rw [hrec, List.foldl_cons, ih]

theorem msbValue_lt (d : List Bool) : msbValue d < 2 ^ d.length := by
  induction d with
  | nil => simp [msbValue]
  | cons c d ih =>
      simp only [msbValue, List.length_cons]
      have h2 : (2 : Nat) ^ (d.length + 1) = 2 * 2 ^ d.length := by
        rw [pow_succ]
        ring
      cases c <;> simp <;> omega

theorem addRight_foldl (d : List Bool) : ∀ a : Nat, a < 2 ^ 64 →
    d.foldl Bit_addRight a = (a * 2 ^ d.length + msbValue d) % 2 ^ 64 := by
  induction d with
  | nil =>
      intro a ha
      simp only [List.foldl_nil, List.length_nil, pow_zero, Nat.mul_one,
        msbValue, Nat.add_zero]
      exact (Nat.mod_eq_of_lt ha).symm
  | cons c d ih =>
      intro a ha
      rw [List.foldl_cons, Bit_addRight_eq a c,
        ih _ (Nat.mod_lt _ (by norm_num)), mod_mul_add_push]
      congr 1
      simp only [msbValue, List.length_cons]
      ring

theorem Bit_fromStringMSB_eq (s : List Char) :
    Bit_fromStringMSB s = msbValue (recognizedBits s) % 2 ^ 64 := by
  rw [Bit_fromStringMSB, fromString_foldl, addRight_foldl _ 0 (by norm_num),
    Nat.zero_mul, Nat.zero_add]

theorem Bit_toStr_loop_acc (i : Nat) : ∀ b acc,
    Bit_toStr_loop i b acc = Bit_toStr_loop i b [] ++ acc := by
  induction i with
  | zero =>
      intro b acc
      rfl
  | succ i ih =>
      intro b acc
      simp only [Bit_toStr_loop]
      rw [ih _ ((if (Bit_getAndRemoveRight b).1 then '1' else '0') :: acc),
        ih _ [(if (Bit_getAndRemoveRight b).1 then '1' else '0')]]
      simp

theorem msbValue_cons (c : Bool) (d : List Bool) :
    msbValue (c :: d) = (if c then 1 else 0) * 2 ^ d.length + msbValue d := rfl

theorem msbValue_append_bit (d : List Bool) (x : Bool) :
    msbValue (d ++ [x]) = 2 * msbValue d + (if x then 1 else 0) := by
  induction d with
  | nil => simp [msbValue]
  | cons c d ih =>
      rw [List.cons_append, msbValue_cons, msbValue_cons c d, ih]
      have hlen : (d ++ [x]).length = d.length + 1 := by simp
      rw [hlen, pow_succ]
      ring

theorem toStr_msbValue (i : Nat) : ∀ b,
    (recognizedBits (Bit_toStr_loop i b [])).length = i ∧
    msbValue (recognizedBits (Bit_toStr_loop i b [])) = b % 2 ^ i := by
  induction i with
  | zero =>
      intro b
      refine ⟨rfl, ?_⟩
      simp [Bit_toStr_loop, recognizedBits, msbValue, Nat.mod_one]
  | succ i ih =>
      intro b
      have hloop : Bit_toStr_loop (i + 1) b [] =
          Bit_toStr_loop i (b / 2) [] ++ [if decide (b % 2 = 1) then '1' else '0'] := by
        simp only [Bit_toStr_loop, getAndRemoveRight_fst, getAndRemoveRight_snd]
        rw [Bit_toStr_loop_acc]
      have hx : recognizedBits [(if decide (b % 2 = 1) then '1' else '0')] =
          [decide (b % 2 = 1)] := by
        rcases Nat.mod_two_eq_zero_or_one b with h | h <;>
          simp [recognizedBits, h]
      have hb2 : (if decide (b % 2 = 1) then (1 : Nat) else 0) = b % 2 := by
        rcases Nat.mod_two_eq_zero_or_one b with h | h <;> simp [h]
      rw [hloop, recognizedBits_append, hx]
      obtain ⟨ihlen, ihval⟩ := ih (b / 2)
      constructor
      · simp [ihlen]
      · rw [msbValue_append_bit, ihval, hb2]
        have h2 : (2 : Nat) ^ (i + 1) = 2 * 2 ^ i := by
          rw [pow_succ]
          ring
        have key : b % 2 ^ (i + 1) = b % 2 + 2 * (b / 2 % 2 ^ i) := by
          rw [h2, Nat.mod_mul]
        omega

/-- Claim C3: for every register `b`,
`fromStringMSB(toStringBinMSB(b)) == b` and
`fromStringLSB(toStringBinLSB(b)) == b`. -/
theorem claim_C3_string_roundtrip (b : Nat) (hb : b < 2 ^ BIT_SIZE) :
    Bit_fromStringMSB (Bit_toStringBinMSB b) = b ∧
    Bit_fromStringLSB (Bit_toStringBinLSB b) = b := by
  rw [BIT_SIZE_eq] at hb
  have hmsb : ∀ x : Nat, x < 2 ^ 64 →
      Bit_fromStringMSB (Bit_toStringBinMSB x) = x := by
    intro x hx
    rw [Bit_toStringBinMSB, BIT_SIZE_eq, Bit_fromStringMSB_eq,
      (toStr_msbValue 64 x).2, Nat.mod_eq_of_lt hx, Nat.mod_eq_of_lt hx]
  constructor
  · exact hmsb b hb
  · rw [Bit_fromStringLSB, Bit_toStringBinLSB, hmsb _ (Bit_reverse_lt b),
      Bit_reverse_eq, Bit_reverse_eq]
    exact natRevBits_invol 64 b hb

/-- Witness for C3 at `b = 37`. -/
theorem claim_C3_string_roundtrip_witness :
    37 < 2 ^ BIT_SIZE ∧
    (Bit_fromStringMSB (Bit_toStringBinMSB 37) = 37 ∧
     Bit_fromStringLSB (Bit_toStringBinLSB 37) = 37) :=
  ⟨by decide, claim_C3_string_roundtrip 37 (by decide)⟩

/-! ### `fromStringLSB` (claim C4) -/

theorem natRevBits_msbValue (d : List Bool) :
    natRevBits d.length (msbValue d) = spec_lsbValue d := by
  induction d with
  | nil => rfl
  | cons c d ih =>
      simp only [msbValue, List.length_cons, spec_lsbValue]
      cases c
      · simp only [Bool.false_eq_true, if_false, Nat.zero_mul, Nat.zero_add]
        rw [natRevBits_double _ _ (msbValue_lt d), ih]
      · simp only [if_true, Nat.one_mul]
        rw [natRevBits_add_top _ _ (msbValue_lt d), ih]

theorem natRevBits_widen (k j : Nat) : ∀ b, b < 2 ^ k →
    natRevBits (k + j) b = natRevBits k b * 2 ^ j := by
  induction j with
  | zero =>
      intro b hb
      simp
  | succ j ih =>
      intro b hb
      have h1 : k + (j + 1) = (k + j) + 1 := by omega
      rw [h1, natRevBits_double (k + j) b
          (Nat.lt_of_lt_of_le hb (Nat.pow_le_pow_right (by norm_num) (by omega))),
        ih b hb, pow_succ]
      ring

set_option maxRecDepth 4000 in
/-- Claim C4 counterexample: the claim implies `fromStringLSB("101") == 5`
(and that bit 1 of the result is the first recognized character), but the
code reverses the parsed value over the whole 64-bit word, so the three
recognized bits land at the top: the result is
0xA000000000000000 = 11529215046068469760. -/
theorem claim_C4_counterexample :
    Bit_fromStringLSB ['1', '0', '1'] = 11529215046068469760 ∧
    Bit_fromStringLSB ['1', '0', '1'] ≠ 5 := by
  constructor <;> decide

/-- Claim C4 (amended): for a string whose recognized '0'/'1' characters
number `k ≤ N`, `fromStringLSB(s)` equals the value that reads the first
recognized character as least-significant bit, shifted up by `N - k`
positions: the recognized characters occupy the top `k` bits (first
recognized character lowest among them), and bits `1 .. N - k` are 0. -/
theorem claim_C4_fromStringLSB_amended (s : List Char)
    (hk : (recognizedBits s).length ≤ BIT_SIZE) :
    Bit_fromStringLSB s =
      spec_lsbValue (recognizedBits s) *
        2 ^ (BIT_SIZE - (recognizedBits s).length) := by
  rw [BIT_SIZE_eq] at hk ⊢
  have hlt : msbValue (recognizedBits s) < 2 ^ 64 :=
    Nat.lt_of_lt_of_le (msbValue_lt _) (Nat.pow_le_pow_right (by norm_num) hk)
  rw [Bit_fromStringLSB, Bit_fromStringMSB_eq, Nat.mod_eq_of_lt hlt,
    Bit_reverse_eq]
  have h64 : 64 = (recognizedBits s).length + (64 - (recognizedBits s).length) := by
    omega
  conv_lhs => rw [h64]
  rw [natRevBits_widen _ _ _ (msbValue_lt _), natRevBits_msbValue]

/-- Witness for the amended C4 at `s = "101"`. -/
theorem claim_C4_fromStringLSB_amended_witness :
    (recognizedBits ['1', '0', '1']).length ≤ BIT_SIZE ∧
    Bit_fromStringLSB ['1', '0', '1'] =
      spec_lsbValue (recognizedBits ['1', '0', '1']) *
        2 ^ (BIT_SIZE - (recognizedBits ['1', '0', '1']).length) :=
  ⟨by decide, claim_C4_fromStringLSB_amended ['1', '0', '1'] (by decide)⟩

/-! ### Hexadecimal printing (claim C9) -/

theorem hexDigitsAux_zero_val (f : Nat) : ∀ acc, hexDigitsAux f 0 acc = acc := by
  intro acc
  cases f <;> simp [hexDigitsAux]

theorem hexDigitsAux_acc (fuel : Nat) : ∀ n acc,
    hexDigitsAux fuel n acc = hexDigitsAux fuel n [] ++ acc := by
  induction fuel with
  | zero =>
      intro n acc
      rfl
  | succ fuel ih =>
      intro n acc
      by_cases h : n = 0
      · simp [hexDigitsAux, h]
      · simp only [hexDigitsAux, if_neg h]
        rw [ih (n / 16) (hexDigitChar (n % 16) :: acc),
          ih (n / 16) [hexDigitChar (n % 16)]]
        simp

theorem hexDigitsAux_fuel (m : Nat) : ∀ f g acc, m ≤ f → m ≤ g →
    hexDigitsAux f m acc = hexDigitsAux g m acc := by
  induction m using Nat.strong_induction_on with
  | _ m ih =>
      intro f g acc hf hg
      by_cases h : m = 0
      · subst h
        cases f <;> cases g <;> simp [hexDigitsAux]
      · obtain ⟨f', rfl⟩ : ∃ f', f = f' + 1 := ⟨f - 1, by omega⟩
        obtain ⟨g', rfl⟩ : ∃ g', g = g' + 1 := ⟨g - 1, by omega⟩
        simp only [hexDigitsAux, if_neg h]
        exact ih (m / 16) (by omega) _ _ _ (by omega) (by omega)

theorem hexDigitsFix_zero (k : Nat) : ∀ acc,
    hexDigitsFix k 0 acc = List.replicate k '0' ++ acc := by
  induction k with
  | zero =>
      intro acc
      rfl
  | succ k ih =>
      intro acc
      simp only [hexDigitsFix]
      have h0 : (0 : Nat) / 16 = 0 := rfl
      have hc : hexDigitChar (0 % 16) = '0' := rfl
      rw [h0, hc, ih, List.replicate_succ']
      simp

theorem hexDigitsFix_pad (k : Nat) : ∀ n acc, 0 < n → n < 16 ^ k →
    hexDigitsFix k n acc =
      List.replicate (k - (hexDigitsAux n n []).length) '0' ++
        hexDigitsAux n n [] ++ acc := by
  induction k with
  | zero =>
      intro n acc h0 hk
      exact absurd hk (by omega)
  | succ k ih =>
      intro n acc h0 hk
      have hunf : hexDigitsAux n n [] =
          hexDigitsAux (n - 1) (n / 16) [hexDigitChar (n % 16)] := by
        obtain ⟨n', rfl⟩ : ∃ n', n = n' + 1 := ⟨n - 1, by omega⟩
        simp only [hexDigitsAux, if_neg (by omega : ¬ n' + 1 = 0),
          Nat.add_sub_cancel]
      simp only [hexDigitsFix]
      by_cases hsm : n / 16 = 0
      · have hdig : hexDigitsAux n n [] = [hexDigitChar (n % 16)] := by
          rw [hunf, hsm, hexDigitsAux_zero_val]
        rw [hsm, hexDigitsFix_zero, hdig]
        simp
      · have h16 : n / 16 < 16 ^ k := by
          have hp : (16 : Nat) ^ (k + 1) = 16 * 16 ^ k := by
            rw [pow_succ]
            ring
          omega
        rw [ih (n / 16) (hexDigitChar (n % 16) :: acc) (by omega) h16]
        have hstep : hexDigitsAux n n [] =
            hexDigitsAux (n / 16) (n / 16) [] ++ [hexDigitChar (n % 16)] := by
          rw [hunf, hexDigitsAux_fuel (n / 16) (n - 1) (n / 16) _ (by omega) (le_refl _)]
          exact hexDigitsAux_acc (n / 16) (n / 16) [hexDigitChar (n % 16)]
        rw [hstep]
        have hlen : (hexDigitsAux (n / 16) (n / 16) [] ++ [hexDigitChar (n % 16)]).length
            = (hexDigitsAux (n / 16) (n / 16) []).length + 1 := by simp
        rw [hlen]
        have harith : k + 1 - ((hexDigitsAux (n / 16) (n / 16) []).length + 1)
            = k - (hexDigitsAux (n / 16) (n / 16) []).length := by omega
        rw [harith]
        simp

/-- Claim C9 counterexample: the claim says the output is always
`0x`-prefixed with 16 digits, but `printf("%#018llX", b)` writes no
prefix at all for `b = 0` (the field is 18 `'0'` characters) and writes
the prefix as `0X` (capital X) for nonzero values. -/
theorem claim_C9_counterexample :
    Bit_printHex_output 0 ≠ spec_printHex_output 0 ∧
    Bit_printHex_output 255 ≠ spec_printHex_output 255 := by
  constructor <;> decide

/-- Claim C9 (amended): for every register `b`, `printHex(b)` writes an
18-character field: for `b = 0` it is 18 `'0'` characters (printf's `#`
flag adds no prefix to a zero value), and for `b ≠ 0` it is the prefix
`0X` (capital X, as `%X` capitalizes the prefix) followed by the
zero-padded 16-digit uppercase hexadecimal representation of `b`. -/
theorem claim_C9_printHex_amended (b : Nat) (hb : b < 2 ^ BIT_SIZE) :
    Bit_printHex_output b =
      if b = 0 then List.replicate 18 '0' else '0' :: 'X' :: hexDigits16 b := by
  by_cases h : b = 0
  · subst h
    rw [if_pos rfl]
    decide
  · rw [if_neg h, BIT_SIZE_eq] at *
    have hb16 : b < 16 ^ 16 := by
      have h16 : (16 : Nat) ^ 16 = 2 ^ 64 := by norm_num
      omega
    simp only [Bit_printHex_output, hexDigitsMin, if_neg h]
    rw [hexDigits16, hexDigitsFix_pad 16 b [] (by omega) hb16]
    have harith : 18 - (List.length ['0', 'X'] + (hexDigitsAux b b []).length)
        = 16 - (hexDigitsAux b b []).length := by
      simp only [List.length_cons, List.length_nil]
      omega
    rw [harith]
    simp

/-- Witness for the amended C9 at `b = 255`. -/
theorem claim_C9_printHex_amended_witness :
    255 < 2 ^ BIT_SIZE ∧
    Bit_printHex_output 255 =
      (if (255 : Nat) = 0 then List.replicate 18 '0'
       else '0' :: 'X' :: hexDigits16 255) :=
  ⟨by decide, claim_C9_printHex_amended 255 (by decide)⟩
